import Mathlib

/-!
# MyLifeOS — dual-store versioning and reconciliation engine

Shallow embedding of the versioning/reconciliation core of the MyLifeOS
repository and proofs of the specified invariants.

The relational schema is embedded from `src/migrations/0001_lifeos_v2.sql`
and `src/migrations/0003_thoughts_ideas_cards.sql`.  The service layer
(`app/services`) is not part of the source tree that was provided; where a
claim depends on it, the corresponding operation is modelled from the
specification and its doc comment says so explicitly.
-/

set_option maxHeartbeats 1000000

namespace LifeOS

/-- A row of a version-chain table (shape shared by `entry_versions`,
`obs_activity`, `obs_sleep`, `obs_food`, `obs_weight`, `tasks`,
`improvements`, `insights`, `ideas`, `insight_cards`, `chat_threads` in
`0001_lifeos_v2.sql` / `0003_thoughts_ideas_cards.sql`): a primary-key
version id, the stable logical id, `version_no >= 1`, the `is_current`
flag, the backward `supersedes_id` link, the provenance run and the
content-address pair `(payload_hash, payload_hash_version)`. -/
structure VersionRow where
  version_id : String
  logical_id : String
  version_no : Nat
  is_current : Bool
  supersedes_id : Option String
  source_run_id : String
  payload_hash : String
  payload_hash_version : String
  deriving Repr, DecidableEq

/-- The table state: the bag of rows currently in one version-chain table. -/
abbrev Table := List VersionRow

/-- Primary-key constraint of every version-chain table: `version_id` is
the PRIMARY KEY, so the ids of the rows are pairwise distinct. -/
def pkOK (rows : Table) : Prop :=
  (rows.map (·.version_id)).Nodup

instance (rows : Table) : Decidable (pkOK rows) := by
  unfold pkOK; infer_instance

/-- The partial unique index
`CREATE UNIQUE INDEX idx_*_one_current ON t(logical_id) WHERE is_current = 1`
(e.g. `idx_entry_versions_one_current`, lines 75-76, and
`idx_ideas_one_current`, migration 0003 lines 79-80): two rows of the
table that agree on `logical_id` and are both current must be the same
row. -/
def oneCurrentIndexOK (rows : Table) : Prop :=
  ∀ r1 ∈ rows, ∀ r2 ∈ rows,
    r1.logical_id = r2.logical_id → r1.is_current = true → r2.is_current = true → r1 = r2

instance (rows : Table) : Decidable (oneCurrentIndexOK rows) := by
  unfold oneCurrentIndexOK; infer_instance

/-- SQLite commits a transaction on a table only when the declared
constraints hold of the resulting state; a committed step may rewrite the
table arbitrarily as long as the primary key and the partial unique
index accept the result. -/
def CommittedStep (_s s' : Table) : Prop :=
  pkOK s' ∧ oneCurrentIndexOK s'

/-- Table states reachable from the empty table by committed transactions. -/
inductive ReachableTable : Table → Prop
  | init : ReachableTable []
  | step {s s' : Table} : ReachableTable s → CommittedStep s s' → ReachableTable s'

/-- Number of rows of the table that are current for a given logical id. -/
def countCurrent (rows : Table) (lid : String) : Nat :=
  rows.countP fun r => r.logical_id == lid && r.is_current

lemma countCurrent_le_one_of_constraints (rows : Table)
    (hpk : pkOK rows) (hidx : oneCurrentIndexOK rows) (lid : String) :
    countCurrent rows lid ≤ 1 := by
  unfold countCurrent
  rw [List.countP_eq_length_filter]
  set p : VersionRow → Bool := fun r => r.logical_id == lid && r.is_current with hp
  rcases hf : rows.filter p with _ | ⟨a, _ | ⟨b, t⟩⟩
  · simp
  · simp
  · exfalso
    have hsub : (rows.filter p).Sublist rows := List.filter_sublist rows
    have hnd : ((rows.filter p).map (·.version_id)).Nodup :=
      List.Nodup.sublist (List.Sublist.map _ hsub) hpk
    have ha : a ∈ rows.filter p := by rw [hf]; exact List.mem_cons_self _ _
    have hb : b ∈ rows.filter p := by rw [hf]; exact List.mem_cons_of_mem _ (List.mem_cons_self _ _)
    have ha' := List.mem_filter.mp ha
    have hb' := List.mem_filter.mp hb
    have hpa : p a = true := ha'.2
    have hpb : p b = true := hb'.2
    rw [hp] at hpa hpb
    simp only [Bool.and_eq_true, beq_iff_eq] at hpa hpb
    have heq : a = b :=
      hidx a ha'.1 b hb'.1 (hpa.1.trans hpb.1.symm) hpa.2 hpb.2
    rw [hf] at hnd
    simp only [List.map_cons, List.nodup_cons, List.mem_cons, List.mem_map] at hnd
    exact hnd.1 (Or.inl (by rw [heq]))

/-- **C1.** In every version-chain table, the partial unique index
(`... ON t(logical_id) WHERE is_current = 1`) forces that after any
committed sequence of transactions, for every `logical_id` the number of
rows with `is_current = true` is at most one (i.e. 0 or 1). -/
theorem one_current_per_logical_id {rows : Table}
    (h : ReachableTable rows) (lid : String) :
    countCurrent rows lid ≤ 1 := by
  cases h with
  | init => simp [countCurrent]
  | step _ hc => exact countCurrent_le_one_of_constraints _ hc.1 hc.2 lid

/-- Concrete instance of `one_current_per_logical_id`: a table holding a
single committed current row for logical id `L1` has exactly one current
row for `L1` (and, a fortiori, at most one). -/
theorem one_current_per_logical_id_witness :
    countCurrent [⟨"v1", "L1", 1, true, none, "R1", "h", "sha256-v1"⟩] "L1" ≤ 1 :=
  one_current_per_logical_id
    (ReachableTable.step ReachableTable.init (by constructor <;> decide)) "L1"

/-! ## The VersionedEntityStore commit operation -/

/-- Does a row carry the idempotency triple
`(source_run_id, payload_hash, payload_hash_version)`?  This is the
column triple of the schema constraint
`UNIQUE(source_run_id, payload_hash, payload_hash_version)`
(e.g. `obs_activity` line 175, `ideas` migration 0003 line 72). -/
def tripleMatches (run ph phv : String) (r : VersionRow) : Bool :=
  r.source_run_id == run && r.payload_hash == ph && r.payload_hash_version == phv

/-- Lookup of an existing version by idempotency triple. -/
def findByTriple (rows : Table) (run ph phv : String) : Option VersionRow :=
  rows.find? (tripleMatches run ph phv)

/-- Lookup of the current version of a logical id. -/
def currentOf (rows : Table) (lid : String) : Option VersionRow :=
  rows.find? fun r => r.logical_id == lid && r.is_current

/-- Result of a commit: the version id and whether a new row was created. -/
structure CommitResult where
  version_id : String
  created : Bool
  deriving Repr, DecidableEq

/-- Flip `is_current` to false on the row whose primary key is `vid`
(the UPDATE half of the supersede step); all other rows are untouched. -/
def flipCurrent (vid : String) (r : VersionRow) : VersionRow :=
  if r.version_id == vid then { r with is_current := false } else r

/-- Modelled from the spec: the service layer (`app/services`) that
implements §4.3 `commit_version` is not in the provided source tree; this
follows the specification text.  Steps: (1) the payload hash is computed
by the caller-side ContentAddresser and passed in; (2) if a version with
the same `(run_id, payload_hash, hash_version)` already exists, it is
returned unchanged with `created = false`; (3) otherwise the current
version for `logical_id` (if any) is looked up, the new row is inserted
with `supersedes_id` pointing at it, `version_no = previous + 1` (or 1),
`is_current = true`, and the previous current row is flipped to
`is_current = false`, all in one transaction. -/
def commit_version (rows : Table) (lid run_id ph phv new_vid : String) :
    Table × CommitResult :=
  match findByTriple rows run_id ph phv with
  | some r => (rows, ⟨r.version_id, false⟩)
  | none =>
    match currentOf rows lid with
    | some prev =>
        (⟨new_vid, lid, prev.version_no + 1, true, some prev.version_id, run_id, ph, phv⟩ ::
           rows.map (flipCurrent prev.version_id),
         ⟨new_vid, true⟩)
    | none =>
        (⟨new_vid, lid, 1, true, none, run_id, ph, phv⟩ :: rows, ⟨new_vid, true⟩)

/-- Number of persisted rows carrying a given idempotency triple. -/
def countTriple (rows : Table) (run ph phv : String) : Nat :=
  rows.countP (tripleMatches run ph phv)

lemma tripleMatches_flip (run ph phv : String) (vid : String) (r : VersionRow) :
    tripleMatches run ph phv (flipCurrent vid r) = tripleMatches run ph phv r := by
  by_cases h : r.version_id == vid <;> simp [flipCurrent, h, tripleMatches]

lemma countTriple_flip (rows : Table) (run ph phv vid : String) :
    countTriple (rows.map (flipCurrent vid)) run ph phv
      = countTriple rows run ph phv := by
  unfold countTriple
  rw [List.countP_map]
  exact List.countP_congr fun r _ => by
    simpa using (tripleMatches_flip run ph phv vid r)

lemma countTriple_eq_zero_of_find_none (rows : Table) (run ph phv : String)
    (h : findByTriple rows run ph phv = none) :
    countTriple rows run ph phv = 0 := by
  unfold findByTriple at h
  unfold countTriple
  rw [List.countP_eq_zero]
  intro r hr
  exact List.find?_eq_none.mp h r hr

lemma one_le_countTriple_of_find_some (rows : Table) (run ph phv : String)
    (r : VersionRow) (h : findByTriple rows run ph phv = some r) :
    1 ≤ countTriple rows run ph phv := by
  unfold findByTriple at h
  unfold countTriple
  rw [List.countP_eq_length_filter]
  have hr : r ∈ rows.filter (tripleMatches run ph phv) :=
    List.mem_filter.mpr ⟨List.mem_of_find?_eq_some h, List.find?_some h⟩
  exact List.length_pos.mpr (List.ne_nil_of_mem hr)

lemma countTriple_after_commit (rows : Table) (lid run ph phv v1 : String)
    (hpre : countTriple rows run ph phv ≤ 1) :
    countTriple (commit_version rows lid run ph phv v1).1 run ph phv = 1 := by
  unfold commit_version
  rcases hfind : findByTriple rows run ph phv with _ | r
  · have h0 := countTriple_eq_zero_of_find_none rows run ph phv hfind
    rcases hcur : currentOf rows lid with _ | prev
    · simp only [hfind, hcur]
      unfold countTriple at h0 ⊢
      simp [List.countP_cons, h0, tripleMatches]
    · simp only [hfind, hcur]
      unfold countTriple at h0 ⊢
      rw [List.countP_cons]
      have := countTriple_flip rows run ph phv prev.version_id
      unfold countTriple at this
      rw [this, h0]
      simp [tripleMatches]
  · simp only [hfind]
    exact Nat.le_antisymm
      (by simpa [countTriple] using hpre)
      (one_le_countTriple_of_find_some rows run ph phv r hfind)

/-- **C2.** `commit_version` is idempotent on the triple
`(run_id, payload_hash, payload_hash_version)`: under the schema
uniqueness precondition (at most one persisted row with the triple), a
second call with the same run id and canonical payload returns
`created = false`, leaves the table unchanged, and exactly one row with
that triple is persisted. -/
theorem commit_version_idempotent (rows : Table) (lid run ph phv v1 v2 : String)
    (hpre : countTriple rows run ph phv ≤ 1) :
    (commit_version (commit_version rows lid run ph phv v1).1 lid run ph phv v2).2.created
        = false ∧
    (commit_version (commit_version rows lid run ph phv v1).1 lid run ph phv v2).1
        = (commit_version rows lid run ph phv v1).1 ∧
    countTriple (commit_version rows lid run ph phv v1).1 run ph phv = 1 := by
  have hone := countTriple_after_commit rows lid run ph phv v1 hpre
  set rows1 := (commit_version rows lid run ph phv v1).1 with hrows1
  have hex : ∃ r ∈ rows1, tripleMatches run ph phv r = true := by
    by_contra hno
    push_neg at hno
    have : countTriple rows1 run ph phv = 0 := by
      unfold countTriple
      rw [List.countP_eq_zero]
      intro r hr
      exact hno r hr
    omega
  have hsome : ∃ r, findByTriple rows1 run ph phv = some r := by
    have : (rows1.find? (tripleMatches run ph phv)).isSome := by
      rw [List.find?_isSome]
      exact hex
    unfold findByTriple
    exact Option.isSome_iff_exists.mp this
  obtain ⟨r, hr⟩ := hsome
  refine ⟨?_, ?_, hone⟩ <;> simp [commit_version, hr]

/-- Concrete instance of `commit_version_idempotent`: starting from the
empty table, committing payload hash `H` under run `R1` and retrying with
a second candidate version id yields `created = false`, an unchanged
table, and exactly one persisted row with the triple. -/
theorem commit_version_idempotent_witness :
    countTriple ([] : Table) "R1" "H" "sha256-v1" ≤ 1 ∧
    (commit_version (commit_version [] "L1" "R1" "H" "sha256-v1" "v1").1
        "L1" "R1" "H" "sha256-v1" "v2").2.created = false :=
  ⟨by decide,
   (commit_version_idempotent [] "L1" "R1" "H" "sha256-v1" "v1" "v2" (by decide)).1⟩

/-! ## Version-chain contiguity and the supersedes chain (C3) -/

/-- All rows of a logical id, in table order (newest first, since commits
prepend). -/
def versionsOf (rows : Table) (lid : String) : Table :=
  rows.filter fun r => r.logical_id == lid

/-- `chainFrom r t`: starting from row `r`, the list `t` is the backward
`supersedes` chain of `r`, each row superseding the next, with version
numbers decreasing by one down to 1. -/
def chainFrom : VersionRow → Table → Bool
  | r, [] => r.version_no == 1 && r.supersedes_id == none
  | r, s :: t =>
      r.version_no == s.version_no + 1 && r.supersedes_id == some s.version_id &&
        chainFrom s t

/-- The versions of one logical id, newest first, form a well-shaped
family: the head is the current row, every other row is superseded, and
the supersedes links walk down the list with contiguous version numbers. -/
def goodFamily : Table → Bool
  | [] => true
  | r :: t => r.is_current && t.all (fun s => !s.is_current) && chainFrom r t

/-- The supersedes-chain part of `goodFamily` (what claim C3 states). -/
def suppChainOK : Table → Bool
  | [] => true
  | r :: t => chainFrom r t

/-- Chain invariant of the whole table. -/
def chainInv (rows : Table) : Prop :=
  ∀ lid, goodFamily (versionsOf rows lid) = true

@[simp] lemma flipCurrent_version_id (vid : String) (r : VersionRow) :
    (flipCurrent vid r).version_id = r.version_id := by
  unfold flipCurrent; split <;> rfl

@[simp] lemma flipCurrent_logical_id (vid : String) (r : VersionRow) :
    (flipCurrent vid r).logical_id = r.logical_id := by
  unfold flipCurrent; split <;> rfl

lemma flipCurrent_of_ne (vid : String) (r : VersionRow) (h : r.version_id ≠ vid) :
    flipCurrent vid r = r := by
  unfold flipCurrent; simp [h]

lemma flipCurrent_self (r : VersionRow) :
    flipCurrent r.version_id r = { r with is_current := false } := by
  unfold flipCurrent; simp

lemma chainFrom_set_current (r : VersionRow) (b : Bool) (t : Table) :
    chainFrom { r with is_current := b } t = chainFrom r t := by
  cases t <;> simp [chainFrom]

lemma pk_inj {rows : Table} (hpk : pkOK rows) {x y : VersionRow}
    (hx : x ∈ rows) (hy : y ∈ rows) (h : x.version_id = y.version_id) : x = y :=
  List.inj_on_of_nodup_map hpk hx hy h

lemma versionsOf_cons_self {x : VersionRow} (rows : Table) {lid : String}
    (h : x.logical_id = lid) :
    versionsOf (x :: rows) lid = x :: versionsOf rows lid := by
  unfold versionsOf
  rw [List.filter_cons_of_pos]
  simp [h]

lemma versionsOf_cons_other {x : VersionRow} (rows : Table) {lid : String}
    (h : x.logical_id ≠ lid) :
    versionsOf (x :: rows) lid = versionsOf rows lid := by
  unfold versionsOf
  rw [List.filter_cons_of_neg]
  simp [h]

lemma versionsOf_map_flip (rows : Table) (vid lid : String) :
    versionsOf (rows.map (flipCurrent vid)) lid
      = (versionsOf rows lid).map (flipCurrent vid) := by
  unfold versionsOf
  rw [List.filter_map]
  congr 1
  apply List.filter_congr
  intro r _
  simp [Function.comp]

lemma currentOf_none {rows : Table} {lid : String} (h : currentOf rows lid = none) :
    ∀ r ∈ rows, ¬(r.logical_id = lid ∧ r.is_current = true) := by
  intro r hr hcon
  have := List.find?_eq_none.mp h r hr
  simp [hcon.1, hcon.2] at this

lemma currentOf_some {rows : Table} {lid : String} {prev : VersionRow}
    (h : currentOf rows lid = some prev) :
    prev ∈ rows ∧ prev.logical_id = lid ∧ prev.is_current = true := by
  have hm := List.mem_of_find?_eq_some h
  have hp := List.find?_some h
  simp only [Bool.and_eq_true, beq_iff_eq] at hp
  exact ⟨hm, hp.1, hp.2⟩

lemma versionsOf_nil_of_no_current {rows : Table} {lid : String}
    (hinv : goodFamily (versionsOf rows lid) = true)
    (h : currentOf rows lid = none) :
    versionsOf rows lid = [] := by
  rcases hv : versionsOf rows lid with _ | ⟨r, t⟩
  · rfl
  · exfalso
    rw [hv] at hinv
    simp only [goodFamily, Bool.and_eq_true] at hinv
    have hrmem : r ∈ versionsOf rows lid := by
      rw [hv]; exact List.mem_cons_self _ _
    have hr := List.mem_filter.mp hrmem
    exact currentOf_none h r hr.1 ⟨by simpa using hr.2, hinv.1.1⟩

lemma versionsOf_head_of_current {rows : Table} {lid : String} {prev : VersionRow}
    (hinv : goodFamily (versionsOf rows lid) = true)
    (h : currentOf rows lid = some prev) :
    ∃ t, versionsOf rows lid = prev :: t := by
  obtain ⟨hmem, hlid, hcur⟩ := currentOf_some h
  have hmemv : prev ∈ versionsOf rows lid :=
    List.mem_filter.mpr ⟨hmem, by simp [hlid]⟩
  rcases hv : versionsOf rows lid with _ | ⟨r, t⟩
  · rw [hv] at hmemv; cases hmemv
  · rw [hv] at hmemv hinv
    simp only [goodFamily, Bool.and_eq_true, List.all_eq_true] at hinv
    rcases List.mem_cons.mp hmemv with he | ht
    · exact ⟨t, by rw [he]⟩
    · exfalso
      have := hinv.1.2 prev ht
      rw [hcur] at this
      exact absurd this (by simp)

lemma nodup_versionsOf_map {rows : Table} (hpk : pkOK rows) (lid : String) :
    ((versionsOf rows lid).map (·.version_id)).Nodup :=
  (List.Sublist.map _ (List.filter_sublist rows)).nodup hpk

lemma tail_flip_id {rows : Table} {lid : String} {prev : VersionRow} {t : Table}
    (hpk : pkOK rows) (hv : versionsOf rows lid = prev :: t) :
    t.map (flipCurrent prev.version_id) = t := by
  have hnd := nodup_versionsOf_map hpk lid
  rw [hv] at hnd
  simp only [List.map_cons, List.nodup_cons, List.mem_map] at hnd
  have hne : ∀ x ∈ t, x.version_id ≠ prev.version_id := by
    intro x hx hcon
    exact hnd.1 ⟨x, hx, hcon⟩
  conv_rhs => rw [← List.map_id t]
  exact List.map_congr_left fun x hx => flipCurrent_of_ne _ _ (hne x hx)

lemma versionsOf_flip_other {rows : Table} {lid lid' : String} {prev : VersionRow}
    (hpk : pkOK rows) (hmem : prev ∈ rows) (hlid : prev.logical_id = lid)
    (hne : lid' ≠ lid) :
    (versionsOf rows lid').map (flipCurrent prev.version_id) = versionsOf rows lid' := by
  conv_rhs => rw [← List.map_id (versionsOf rows lid')]
  apply List.map_congr_left
  intro x hx
  apply flipCurrent_of_ne
  intro hcon
  have hx' := List.mem_filter.mp hx
  have hxp : x = prev := pk_inj hpk hx'.1 hmem hcon
  have : x.logical_id = lid' := by simpa using hx'.2
  rw [hxp, hlid] at this
  exact hne this.symm

/-- A committed `commit_version` preserves the primary key and the chain
invariant, provided the fresh version id really is fresh. -/
lemma commit_preserves (rows : Table) (lid run ph phv vid : String)
    (hpk : pkOK rows) (hinv : chainInv rows)
    (hfresh : vid ∉ rows.map (·.version_id)) :
    pkOK (commit_version rows lid run ph phv vid).1 ∧
    chainInv (commit_version rows lid run ph phv vid).1 := by
  unfold commit_version
  rcases hfind : findByTriple rows run ph phv with _ | r
  · rcases hcur : currentOf rows lid with _ | prev
    · -- brand-new logical id: prepend a version_no = 1 row
      simp only [hfind, hcur]
      constructor
      · exact List.nodup_cons.mpr ⟨hfresh, hpk⟩
      · intro lid'
        by_cases hl : lid = lid'
        · have hnil := versionsOf_nil_of_no_current (hinv lid) hcur
          subst hl
          rw [versionsOf_cons_self _ rfl, hnil]
          simp [goodFamily, chainFrom]
        · rw [versionsOf_cons_other _ hl]
          exact hinv lid'
    · -- supersede the existing current version
      simp only [hfind, hcur]
      obtain ⟨hmem, hlid, hcurr⟩ := currentOf_some hcur
      obtain ⟨t, hv⟩ := versionsOf_head_of_current (hinv lid) hcur
      have hmapids : ((rows.map (flipCurrent prev.version_id)).map (·.version_id))
          = rows.map (·.version_id) := by
        rw [List.map_map]
        exact List.map_congr_left fun x _ => by simp [Function.comp]
      constructor
      · show (((_ : VersionRow) :: rows.map (flipCurrent prev.version_id)).map
            (·.version_id)).Nodup
        rw [List.map_cons, hmapids]
        exact List.nodup_cons.mpr ⟨hfresh, hpk⟩
      · intro lid'
        have hflip : versionsOf (rows.map (flipCurrent prev.version_id)) lid
            = { prev with is_current := false } :: t := by
          rw [versionsOf_map_flip, hv]
          rw [List.map_cons, flipCurrent_self, tail_flip_id hpk hv]
        have hfam := hinv lid
        rw [hv] at hfam
        simp only [goodFamily, Bool.and_eq_true] at hfam
        obtain ⟨⟨hc1, hall⟩, hch⟩ := hfam
        by_cases hl : lid = lid'
        · subst hl
          rw [versionsOf_cons_self _ rfl, hflip]
          simp [goodFamily, List.all_cons, chainFrom, chainFrom_set_current, hall, hch]
        · rw [versionsOf_cons_other _ hl, versionsOf_map_flip,
              versionsOf_flip_other hpk hmem hlid (fun hcon => hl hcon.symm)]
          exact hinv lid'
  · simpa only [hfind] using ⟨hpk, hinv⟩

/-- Version-store states reachable from the empty table by
`commit_version` calls with fresh version ids. -/
inductive ReachableStore : Table → Prop
  | init : ReachableStore []
  | step {rows : Table} (lid run ph phv vid : String) :
      ReachableStore rows → vid ∉ rows.map (·.version_id) →
      ReachableStore (commit_version rows lid run ph phv vid).1

lemma reachableStore_inv {rows : Table} (h : ReachableStore rows) :
    pkOK rows ∧ chainInv rows := by
  induction h with
  | init => exact ⟨by simp [pkOK], fun _ => rfl⟩
  | step lid run ph phv vid _ hfresh ih =>
      exact commit_preserves _ lid run ph phv vid ih.1 ih.2 hfresh

/-- Version numbers of a well-formed family, newest first: `n, n-1, …, 1`. -/
def descNums : Nat → List Nat
  | 0 => []
  | n + 1 => (n + 1) :: descNums n

lemma chainFrom_nums {r : VersionRow} {t : Table} (h : chainFrom r t = true) :
    r.version_no = t.length + 1 ∧
    (r :: t).map (·.version_no) = descNums (t.length + 1) := by
  induction t generalizing r with
  | nil =>
      simp only [chainFrom, Bool.and_eq_true, beq_iff_eq] at h
      simp [descNums, h.1]
  | cons s t ih =>
      simp only [chainFrom, Bool.and_eq_true, beq_iff_eq] at h
      obtain ⟨⟨h1, _⟩, h3⟩ := h
      obtain ⟨ih1, ih2⟩ := ih h3
      have hr : r.version_no = t.length + 1 + 1 := by omega
      refine ⟨by simpa using hr, ?_⟩
      rw [List.map_cons, ih2, hr]
      rfl

lemma descNums_reverse (n : Nat) : (descNums n).reverse = List.range' 1 n := by
  induction n with
  | zero => rfl
  | succ n ih =>
      simp only [descNums, List.reverse_cons, ih]
      rw [List.range'_concat]
      simp [Nat.add_comm]

/-- **C3.** After any reachable sequence of commits, for every
`logical_id`: the `(logical_id, version_no)` pairs are unique (the
version numbers within the family are pairwise distinct), the version
numbers, read oldest-to-newest, are exactly the contiguous sequence
`1, 2, …, n`, and the family, which is sorted by decreasing
`version_no`, carries the `supersedes_id` backward chain exactly
(each row supersedes the next, down to the first version which
supersedes nothing). -/
theorem version_chain_contiguous {rows : Table} (h : ReachableStore rows) (lid : String) :
    ((versionsOf rows lid).map (·.version_no)).Nodup ∧
    ((versionsOf rows lid).map (·.version_no)).reverse
        = List.range' 1 (versionsOf rows lid).length ∧
    suppChainOK (versionsOf rows lid) = true := by
  obtain ⟨hpk, hinv⟩ := reachableStore_inv h
  have hfam := hinv lid
  rcases hv : versionsOf rows lid with _ | ⟨r, t⟩
  · exact ⟨List.nodup_nil, by simp, rfl⟩
  · rw [hv] at hfam
    simp only [goodFamily, Bool.and_eq_true] at hfam
    have hchain : chainFrom r t = true := hfam.2
    obtain ⟨_, hnums⟩ := chainFrom_nums hchain
    have hrev : ((r :: t).map (·.version_no)).reverse = List.range' 1 (r :: t).length := by
      rw [hnums, descNums_reverse]
      simp
    refine ⟨?_, hrev, hchain⟩
    have : ((r :: t).map (·.version_no)).reverse.Nodup := by
      rw [hrev]; exact List.nodup_range' _ _ 1 Nat.one_pos
    exact List.nodup_reverse.mp this

/-- Concrete instance of `version_chain_contiguous`: two successive
commits to logical id `L1` yield version numbers `1, 2` reading
oldest-to-newest, with the supersedes chain matching. -/
theorem version_chain_contiguous_witness :
    ((versionsOf (commit_version (commit_version [] "L1" "R1" "H1" "sha256-v1" "w1").1
          "L1" "R2" "H2" "sha256-v1" "w2").1 "L1").map (·.version_no)).reverse
        = List.range' 1 (versionsOf (commit_version
            (commit_version [] "L1" "R1" "H1" "sha256-v1" "w1").1
            "L1" "R2" "H2" "sha256-v1" "w2").1 "L1").length ∧
    suppChainOK (versionsOf (commit_version
        (commit_version [] "L1" "R1" "H1" "sha256-v1" "w1").1
        "L1" "R2" "H2" "sha256-v1" "w2").1 "L1") = true := by
  have h := version_chain_contiguous
    (ReachableStore.step "L1" "R2" "H2" "sha256-v1" "w2"
      (ReachableStore.step "L1" "R1" "H1" "sha256-v1" "w1"
        ReachableStore.init (by decide))
      (by decide)) "L1"
  exact ⟨h.2.1, h.2.2⟩

/-! ## Sync conflicts (C5, C6)

The `sync_conflicts` table (`0001_lifeos_v2.sql` lines 439-457) stores one
row per detected divergence; `conflict_status` is constrained by
`CHECK (conflict_status IN ('open', 'resolved_keep_vault', 'resolved_keep_app', 'resolved_merged'))`.
The ReconciliationEngine that mutates it lives in the service layer that
is not part of the provided source tree, so its operations are modelled
from the specification (§4.4). -/

/-- A row of `sync_conflicts` (the columns the reconciliation logic
reads and writes). -/
structure Conflict where
  conflict_id : String
  entity_type : String
  entity_id : String
  vault_content_hash : String
  vault_hash_version : String
  conflict_status : String
  deriving Repr, DecidableEq

/-- The CHECK constraint on `sync_conflicts.conflict_status`
(lines 450-452 of `0001_lifeos_v2.sql`). -/
def conflictStatusAllowed (s : String) : Bool :=
  s == "open" || s == "resolved_keep_vault" || s == "resolved_keep_app" ||
    s == "resolved_merged"

/-- Is this row the open conflict of the pair `(etype, eid)`? -/
def isOpenFor (etype eid : String) (c : Conflict) : Bool :=
  c.entity_type == etype && c.entity_id == eid && c.conflict_status == "open"

/-- Number of open conflict rows for a `(entity_type, entity_id)` pair. -/
def countOpenFor (cs : List Conflict) (etype eid : String) : Nat :=
  cs.countP (isOpenFor etype eid)

/-- Modelled from the spec: §4.4 — when the hashes agree, any existing
open conflict for the pair is closed with a system `resolved_keep_app`
(auto-reconciled). -/
def closeOpenFor (cs : List Conflict) (etype eid : String) : List Conflict :=
  cs.map fun c =>
    if isOpenFor etype eid c then { c with conflict_status := "resolved_keep_app" }
    else c

/-- Modelled from the spec: §4.4 — on divergence, upsert a Conflict row:
update the hashes of an already-open conflict for the pair if there is
one, otherwise create a new row with status `open`. -/
def upsertConflict (cs : List Conflict) (cid etype eid vh vhv : String) :
    List Conflict :=
  if cs.any (isOpenFor etype eid) then
    cs.map fun c =>
      if isOpenFor etype eid c then
        { c with vault_content_hash := vh, vault_hash_version := vhv }
      else c
  else ⟨cid, etype, eid, vh, vhv, "open"⟩ :: cs

/-- The stored status produced by each resolution action (spec §4.4 and
the frontend actions in `ConflictsPage.tsx`); actions outside the enum
resolve to nothing. -/
def resolutionStatus : String → Option String
  | "keep_vault" => some "resolved_keep_vault"
  | "keep_app" => some "resolved_keep_app"
  | "merge" => some "resolved_merged"
  | _ => none

/-- Modelled from the spec: §4.4 — a resolution action marks the still
open conflict with the action's resolved status. -/
def resolveConflict (cs : List Conflict) (cid act : String) : List Conflict :=
  match resolutionStatus act with
  | none => cs
  | some st =>
      cs.map fun c =>
        if c.conflict_id == cid && c.conflict_status == "open" then
          { c with conflict_status := st }
        else c

/-- One reconciliation-engine transition on the conflict table. -/
inductive ConflictStep : List Conflict → List Conflict → Prop
  | reconcile_equal {cs : List Conflict} (etype eid : String) :
      ConflictStep cs (closeOpenFor cs etype eid)
  | reconcile_diverged {cs : List Conflict} (cid etype eid vh vhv : String) :
      ConflictStep cs (upsertConflict cs cid etype eid vh vhv)
  | resolve {cs : List Conflict} (cid act : String) :
      ConflictStep cs (resolveConflict cs cid act)

/-- Conflict-table states reachable from empty by reconciliation and
resolution steps. -/
inductive ReachableConflicts : List Conflict → Prop
  | init : ReachableConflicts []
  | step {cs cs' : List Conflict} :
      ReachableConflicts cs → ConflictStep cs cs' → ReachableConflicts cs'

lemma isOpenFor_status_ne {x y : String} {c : Conflict}
    (h : c.conflict_status ≠ "open") : isOpenFor x y c = false := by
  have hb : (c.conflict_status == "open") = false := beq_eq_false_iff_ne.mpr h
  simp [isOpenFor, hb]

lemma isOpenFor_update_status (x y : String) (c : Conflict) (st : String)
    (h : st ≠ "open") :
    isOpenFor x y { c with conflict_status := st } = false :=
  isOpenFor_status_ne h

lemma countOpenFor_closeOpenFor_le (cs : List Conflict) (a b x y : String) :
    countOpenFor (closeOpenFor cs a b) x y ≤ countOpenFor cs x y := by
  unfold countOpenFor closeOpenFor
  rw [List.countP_map]
  apply List.countP_mono_left
  intro c _ hc
  simp only [Function.comp_apply] at hc
  by_cases h : isOpenFor a b c = true
  · rw [if_pos h, isOpenFor_update_status x y c _ (by decide)] at hc
    cases hc
  · rwa [if_neg h] at hc

lemma countOpenFor_closeOpenFor_self (cs : List Conflict) (a b : String) :
    countOpenFor (closeOpenFor cs a b) a b = 0 := by
  unfold countOpenFor closeOpenFor
  rw [List.countP_map, List.countP_eq_zero]
  intro c _ hcon
  simp only [Function.comp_apply] at hcon
  by_cases h : isOpenFor a b c = true
  · rw [if_pos h, isOpenFor_update_status a b c _ (by decide)] at hcon
    cases hcon
  · rw [if_neg h] at hcon
    exact h hcon

lemma countOpenFor_closeOpenFor_other (cs : List Conflict) (a b x y : String)
    (h : ¬(x = a ∧ y = b)) :
    countOpenFor (closeOpenFor cs a b) x y = countOpenFor cs x y := by
  unfold countOpenFor closeOpenFor
  rw [List.countP_map]
  apply List.countP_congr
  intro c _
  simp only [Function.comp_apply]
  by_cases ho : isOpenFor a b c = true
  · have hne : isOpenFor x y c = false := by
      by_contra hx
      simp only [Bool.not_eq_false] at hx
      simp only [isOpenFor, Bool.and_eq_true, beq_iff_eq] at hx ho
      exact h ⟨hx.1.1.symm.trans ho.1.1, hx.1.2.symm.trans ho.1.2⟩
    rw [if_pos ho, isOpenFor_update_status x y c _ (by decide), hne]
  · rw [if_neg ho]

lemma countOpenFor_upsert_update (cs : List Conflict) (cid a b vh vhv x y : String)
    (h : cs.any (isOpenFor a b) = true) :
    countOpenFor (upsertConflict cs cid a b vh vhv) x y = countOpenFor cs x y := by
  unfold countOpenFor upsertConflict
  rw [if_pos h, List.countP_map]
  apply List.countP_congr
  intro c _
  simp only [Function.comp_apply]
  by_cases ho : isOpenFor a b c = true
  · rw [if_pos ho]
    exact Iff.rfl
  · rw [if_neg ho]

lemma resolutionStatus_ne_open {act st : String}
    (h : resolutionStatus act = some st) : st ≠ "open" := by
  unfold resolutionStatus at h
  split at h <;> first
    | (injection h with he; subst he; decide)
    | simp at h

lemma countOpenFor_resolve_le (cs : List Conflict) (cid act x y : String) :
    countOpenFor (resolveConflict cs cid act) x y ≤ countOpenFor cs x y := by
  unfold resolveConflict
  rcases hres : resolutionStatus act with _ | st
  · exact Nat.le_refl _
  · unfold countOpenFor
    rw [List.countP_map]
    apply List.countP_mono_left
    intro c _ hc
    by_cases h : (c.conflict_id == cid && c.conflict_status == "open") = true
    · exfalso
      simp only [Function.comp, h, if_true] at hc
      rw [isOpenFor_status_ne (resolutionStatus_ne_open hres)] at hc
      cases hc
    · simpa [Function.comp, h] using hc

lemma countOpenFor_upsert_le (cs : List Conflict) (cid a b vh vhv x y : String)
    (h1 : countOpenFor cs x y ≤ 1) :
    countOpenFor (upsertConflict cs cid a b vh vhv) x y ≤ 1 := by
  by_cases hany : cs.any (isOpenFor a b) = true
  · rw [countOpenFor_upsert_update cs cid a b vh vhv x y hany]
    exact h1
  · unfold upsertConflict
    rw [if_neg hany]
    unfold countOpenFor
    rw [List.countP_cons]
    by_cases hpair : x = a ∧ y = b
    · obtain ⟨hx, hy⟩ := hpair
      subst hx; subst hy
      have h0 : cs.countP (isOpenFor x y) = 0 := by
        rw [List.countP_eq_zero]
        intro c hc hopen
        exact hany (List.any_eq_true.mpr ⟨c, hc, hopen⟩)
      have hnew : isOpenFor x y (⟨cid, x, y, vh, vhv, "open"⟩ : Conflict) = true := by
        simp [isOpenFor]
      rw [h0, hnew]
      decide
    · have hnew : isOpenFor x y (⟨cid, a, b, vh, vhv, "open"⟩ : Conflict) = false := by
        by_contra hx
        simp only [Bool.not_eq_false] at hx
        simp only [isOpenFor, Bool.and_eq_true, beq_iff_eq] at hx
        exact hpair ⟨hx.1.1.symm, hx.1.2.symm⟩
      rw [hnew]
      simpa [countOpenFor] using h1

/-- **C5.** After any reachable sequence of reconciliation and
resolution steps, at most one open conflict row exists per
`(entity_type, entity_id)` pair: divergence while a conflict is open
updates the existing row instead of inserting a second one. -/
theorem one_open_conflict_per_pair {cs : List Conflict}
    (h : ReachableConflicts cs) (etype eid : String) :
    countOpenFor cs etype eid ≤ 1 := by
  induction h with
  | init => simp [countOpenFor]
  | step _ hstep ih =>
      cases hstep with
      | reconcile_equal a b =>
          exact le_trans (countOpenFor_closeOpenFor_le _ a b etype eid) ih
      | reconcile_diverged cid a b vh vhv =>
          exact countOpenFor_upsert_le _ cid a b vh vhv etype eid ih
      | resolve cid act =>
          exact le_trans (countOpenFor_resolve_le _ cid act etype eid) ih

/-- Concrete instance of `one_open_conflict_per_pair`: after a
divergence is reported twice for the pair `("entry", "E1")`, the table
still holds at most one open conflict for it. -/
theorem one_open_conflict_per_pair_witness :
    countOpenFor
        (upsertConflict (upsertConflict [] "c1" "entry" "E1" "H1" "sha256-v1")
          "c2" "entry" "E1" "H2" "sha256-v1") "entry" "E1" ≤ 1 :=
  one_open_conflict_per_pair
    (ReachableConflicts.step
      (ReachableConflicts.step ReachableConflicts.init
        (ConflictStep.reconcile_diverged "c1" "entry" "E1" "H1" "sha256-v1"))
      (ConflictStep.reconcile_diverged "c2" "entry" "E1" "H2" "sha256-v1"))
    "entry" "E1"

/-! ## Conflict resolution statuses (C6) -/

lemma resolveConflict_keep_app (cs : List Conflict) (cid : String) :
    resolveConflict cs cid "keep_app"
      = cs.map (fun c =>
          if c.conflict_id == cid && c.conflict_status == "open" then
            { c with conflict_status := "resolved_keep_app" }
          else c) := rfl

lemma resolutionStatus_allowed {act st : String}
    (h : resolutionStatus act = some st) : conflictStatusAllowed st = true := by
  unfold resolutionStatus at h
  split at h <;> first
    | (injection h with he; subst he; decide)
    | simp at h

lemma allowed_closeOpenFor {cs : List Conflict} (a b : String)
    (ih : ∀ c ∈ cs, conflictStatusAllowed c.conflict_status = true) :
    ∀ c ∈ closeOpenFor cs a b, conflictStatusAllowed c.conflict_status = true := by
  intro c hc
  obtain ⟨c0, hc0, rfl⟩ := List.mem_map.mp hc
  by_cases ho : isOpenFor a b c0 = true
  · rw [if_pos ho]
    exact (by decide : conflictStatusAllowed "resolved_keep_app" = true)
  · rw [if_neg ho]
    exact ih c0 hc0

lemma allowed_upsert {cs : List Conflict} (cid a b vh vhv : String)
    (ih : ∀ c ∈ cs, conflictStatusAllowed c.conflict_status = true) :
    ∀ c ∈ upsertConflict cs cid a b vh vhv,
      conflictStatusAllowed c.conflict_status = true := by
  intro c hc
  unfold upsertConflict at hc
  by_cases hany : cs.any (isOpenFor a b) = true
  · rw [if_pos hany] at hc
    obtain ⟨c0, hc0, rfl⟩ := List.mem_map.mp hc
    by_cases ho : isOpenFor a b c0 = true
    · rw [if_pos ho]
      exact ih c0 hc0
    · rw [if_neg ho]
      exact ih c0 hc0
  · rw [if_neg hany] at hc
    rcases List.mem_cons.mp hc with he | hm
    · rw [he]
      exact (by decide : conflictStatusAllowed "open" = true)
    · exact ih c hm

lemma allowed_resolve {cs : List Conflict} (cid act : String)
    (ih : ∀ c ∈ cs, conflictStatusAllowed c.conflict_status = true) :
    ∀ c ∈ resolveConflict cs cid act,
      conflictStatusAllowed c.conflict_status = true := by
  intro c hc
  unfold resolveConflict at hc
  rcases hres : resolutionStatus act with _ | st
  · rw [hres] at hc
    exact ih c hc
  · rw [hres] at hc
    obtain ⟨c0, hc0, rfl⟩ := List.mem_map.mp hc
    by_cases ho : (c0.conflict_id == cid && c0.conflict_status == "open") = true
    · rw [if_pos ho]
      exact resolutionStatus_allowed hres
    · rw [if_neg ho]
      exact ih c0 hc0

lemma statuses_allowed {cs : List Conflict} (h : ReachableConflicts cs) :
    ∀ c ∈ cs, conflictStatusAllowed c.conflict_status = true := by
  induction h with
  | init => intro c hc; cases hc
  | step _ hstep ih =>
      cases hstep with
      | reconcile_equal a b => exact allowed_closeOpenFor a b ih
      | reconcile_diverged cid a b vh vhv => exact allowed_upsert cid a b vh vhv ih
      | resolve cid act => exact allowed_resolve cid act ih

/-- **C6 (counterexample to the claim as stated).** Resolving the open
conflict `c1` with action `keep_app` stores status
`resolved_keep_app`, not `resolved_app`; indeed `resolved_app` is not
even admitted by the CHECK constraint on
`sync_conflicts.conflict_status`. -/
theorem resolve_keep_app_counterexample :
    (resolveConflict [⟨"c1", "entry", "E1", "H", "sha256-v1", "open"⟩]
        "c1" "keep_app").map (·.conflict_status) = ["resolved_keep_app"] ∧
    conflictStatusAllowed "resolved_app" = false ∧
    ("resolved_keep_app" : String) ≠ "resolved_app" := by
  decide

/-- **C6 (amended).** Resolving an open conflict with action `keep_app`
marks the conflict with status `resolved_keep_app` (not `resolved_app`),
and every stored conflict status of a reachable conflict table is one of
open / resolved_keep_vault / resolved_keep_app / resolved_merged. -/
theorem resolve_keep_app_marks_resolved_keep_app {cs : List Conflict}
    {cid : String} {c : Conflict} (hre : ReachableConflicts cs) (hc : c ∈ cs)
    (hid : c.conflict_id = cid) (hopen : c.conflict_status = "open") :
    { c with conflict_status := "resolved_keep_app" }
        ∈ resolveConflict cs cid "keep_app" ∧
    ∀ c' ∈ resolveConflict cs cid "keep_app",
      conflictStatusAllowed c'.conflict_status = true := by
  constructor
  · rw [resolveConflict_keep_app]
    refine List.mem_map.mpr ⟨c, hc, ?_⟩
    have hcond : (c.conflict_id == cid && c.conflict_status == "open") = true := by
      simp [hid, hopen]
    rw [if_pos hcond]
  · exact statuses_allowed
      (ReachableConflicts.step hre (ConflictStep.resolve cid "keep_app"))

/-- Concrete instance of `resolve_keep_app_marks_resolved_keep_app`:
resolving the single open conflict of the pair `("entry", "E1")` with
`keep_app` yields the same row with status `resolved_keep_app`. -/
theorem resolve_keep_app_marks_resolved_keep_app_witness :
    (⟨"c9", "entry", "E1", "H", "sha256-v1", "resolved_keep_app"⟩ : Conflict)
        ∈ resolveConflict (upsertConflict [] "c9" "entry" "E1" "H" "sha256-v1")
            "c9" "keep_app" :=
  (@resolve_keep_app_marks_resolved_keep_app
    (upsertConflict [] "c9" "entry" "E1" "H" "sha256-v1") "c9"
    ⟨"c9", "entry", "E1", "H", "sha256-v1", "open"⟩
    (ReachableConflicts.step ReachableConflicts.init
      (ConflictStep.reconcile_diverged "c9" "entry" "E1" "H" "sha256-v1"))
    (by decide) rfl rfl).1

/-! ## The rebuild pipeline (C4)

`POST /api/admin/rebuild-index` re-derives the index from the vault
(spec §4.5); the pipeline implementation is in the service layer that is
not part of the provided source tree, so it is modelled from the
specification.  The index is modelled per logical id as the list of its
committed version records, newest first. -/

/-- One committed version record: the run that produced it and the
content-address pair. -/
structure VRec where
  run : String
  hash : String
  hv : String
  deriving Repr, DecidableEq

/-- The index: per logical id, its version records, newest first. -/
abbrev RIndex := List (String × List VRec)

/-- The version records of a logical id. -/
def lookupVersions (idx : RIndex) (lid : String) : List VRec :=
  match idx.find? (fun p => p.1 == lid) with
  | some p => p.2
  | none => []

/-- Does any version record carry the idempotency triple
`(run, hash, hv)` (the schema `UNIQUE(source_run_id, payload_hash,
payload_hash_version)` lookup)? -/
def idxTripleExists (idx : RIndex) (run h hv : String) : Bool :=
  idx.any fun p => p.2.any fun v => v.run == run && v.hash == h && v.hv == hv

/-- Modelled from the spec: `commit_version` as used by the rebuild —
a no-op when the idempotency triple already exists, otherwise the new
record becomes the current (head) version of its logical id. -/
def commitIdx (idx : RIndex) (lid run h hv : String) : RIndex :=
  if idxTripleExists idx run h hv then idx
  else if idx.any (fun p => p.1 == lid) then
    idx.map fun p => if p.1 == lid then (p.1, ⟨run, h, hv⟩ :: p.2) else p
  else (lid, [⟨run, h, hv⟩]) :: idx

/-- The content-address pair of the current version of a logical id. -/
def currentHash (idx : RIndex) (lid : String) : Option (String × String) :=
  (lookupVersions idx lid).head?.map fun v => (v.hash, v.hv)

/-- Total number of persisted version rows. -/
def totalVersions (idx : RIndex) : Nat := (idx.map (fun p => p.2.length)).sum

/-- One vault-reported entity: its stable id and content hash
(`(entity_id, path, canonical_content, content_hash, hash_version)`
narrowed to what the pipeline compares). -/
structure VaultItem where
  lid : String
  hash : String
  hv : String
  deriving Repr, DecidableEq

/-- Rebuild state: the index and the conflict table. -/
structure RState where
  idx : RIndex
  conflicts : List Conflict
  deriving Repr, DecidableEq

/-- Does the index's current version of the entity match the vault's
content hash (under the vault's hash version)? -/
def vaultMatch (idx : RIndex) (it : VaultItem) : Bool :=
  currentHash idx it.lid == some (it.hash, it.hv)

/-- Modelled from the spec: §4.5 — for each vault entity, commit a
version if the content hash differs from the current index version (or
no index row exists), then reconcile: matching hashes close any open
conflict for the pair, diverging hashes upsert an open conflict. -/
def processItem (run : String) (s : RState) (it : VaultItem) : RState :=
  let idx1 := if vaultMatch s.idx it then s.idx
              else commitIdx s.idx it.lid run it.hash it.hv
  if vaultMatch idx1 it then
    ⟨idx1, closeOpenFor s.conflicts "entry" it.lid⟩
  else
    ⟨idx1, upsertConflict s.conflicts (String.append "cfl:" it.lid)
      "entry" it.lid it.hash it.hv⟩

/-- Modelled from the spec: §4.5 — the rebuild iterates every
vault-reported entity under one rebuild run. -/
def rebuild (run : String) (s : RState) (vault : List VaultItem) : RState :=
  vault.foldl (processItem run) s

/-- **C4 (counterexample to the claim as stated).** Rebuild is not
idempotent for every vault state: with two distinct entities carrying
identical canonical content (same content hash `H`), the first rebuild
can commit a version for only one of them — the second entity's commit
is swallowed by the run-scoped idempotency triple `(run, H, hv)` — so
the second rebuild, under its fresh run id, creates a new version row
and changes the open-conflict set. -/
theorem rebuild_idempotent_counterexample :
    totalVersions (rebuild "RB2"
        (rebuild "RB1" ⟨[], []⟩ [⟨"L1", "H", "sha256-v1"⟩, ⟨"L2", "H", "sha256-v1"⟩])
        [⟨"L1", "H", "sha256-v1"⟩, ⟨"L2", "H", "sha256-v1"⟩]).idx
      ≠ totalVersions
          (rebuild "RB1" ⟨[], []⟩
            [⟨"L1", "H", "sha256-v1"⟩, ⟨"L2", "H", "sha256-v1"⟩]).idx ∧
    countOpenFor (rebuild "RB2"
        (rebuild "RB1" ⟨[], []⟩ [⟨"L1", "H", "sha256-v1"⟩, ⟨"L2", "H", "sha256-v1"⟩])
        [⟨"L1", "H", "sha256-v1"⟩, ⟨"L2", "H", "sha256-v1"⟩]).conflicts "entry" "L2"
      ≠ countOpenFor
          (rebuild "RB1" ⟨[], []⟩
            [⟨"L1", "H", "sha256-v1"⟩, ⟨"L2", "H", "sha256-v1"⟩]).conflicts
          "entry" "L2" := by
  decide

lemma lookupVersions_cons_pos {q : String × List VRec} {t : RIndex} {lid : String}
    (h : (q.1 == lid) = true) :
    lookupVersions (q :: t) lid = q.2 := by
  unfold lookupVersions
  rw [@List.find?_cons_of_pos _ (fun p => p.1 == lid) q t h]

lemma lookupVersions_cons_neg {q : String × List VRec} {t : RIndex} {lid : String}
    (h : (q.1 == lid) = false) :
    lookupVersions (q :: t) lid = lookupVersions t lid := by
  unfold lookupVersions
  rw [@List.find?_cons_of_neg _ (fun p => p.1 == lid) q t (by simp [h])]

lemma lookupVersions_keyMap_other (idx : RIndex) (lid lid0 : String)
    (g : List VRec → List VRec) (hne : lid0 ≠ lid) :
    lookupVersions (idx.map fun p => if p.1 == lid then (p.1, g p.2) else p) lid0
      = lookupVersions idx lid0 := by
  induction idx with
  | nil => rfl
  | cons q t ih =>
      rw [List.map_cons]
      by_cases hq : (q.1 == lid0) = true
      · have hql : (q.1 == lid) = false := by
          have hq' : q.1 = lid0 := by simpa using hq
          exact beq_eq_false_iff_ne.mpr (by rw [hq']; exact hne)
        rw [if_neg (by simp [hql])]
        rw [lookupVersions_cons_pos hq, lookupVersions_cons_pos hq]
      · have hq' : (q.1 == lid0) = false := by simpa using hq
        have hkey : ((if (q.1 == lid) = true then (q.1, g q.2) else q).1 == lid0)
            = false := by
          by_cases hql : (q.1 == lid) = true
          · rw [if_pos hql]; exact hq'
          · rw [if_neg hql]; exact hq'
        rw [lookupVersions_cons_neg hkey, lookupVersions_cons_neg hq']
        exact ih

lemma lookupVersions_keyMap_self (idx : RIndex) (lid : String)
    (g : List VRec → List VRec)
    (hany : idx.any (fun p => p.1 == lid) = true) :
    lookupVersions (idx.map fun p => if p.1 == lid then (p.1, g p.2) else p) lid
      = g (lookupVersions idx lid) := by
  induction idx with
  | nil => cases hany
  | cons q t ih =>
      rw [List.map_cons]
      by_cases hq : (q.1 == lid) = true
      · rw [if_pos hq]
        rw [@lookupVersions_cons_pos (q.1, g q.2) _ lid hq,
            lookupVersions_cons_pos hq]
      · have hq' : (q.1 == lid) = false := by simpa using hq
        rw [if_neg hq]
        rw [lookupVersions_cons_neg hq', lookupVersions_cons_neg hq']
        have hany' : t.any (fun p => p.1 == lid) = true := by
          rw [List.any_cons] at hany
          rcases Bool.or_eq_true_iff.mp hany with h1 | h2
          · exact absurd h1 hq
          · exact h2
        exact ih hany'

lemma lookupVersions_commitIdx_other (idx : RIndex) (lid run h hv lid0 : String)
    (hne : lid0 ≠ lid) :
    lookupVersions (commitIdx idx lid run h hv) lid0 = lookupVersions idx lid0 := by
  unfold commitIdx
  by_cases ht : idxTripleExists idx run h hv = true
  · rw [if_pos ht]
  · rw [if_neg ht]
    by_cases hl : idx.any (fun p => p.1 == lid) = true
    · rw [if_pos hl]
      exact lookupVersions_keyMap_other idx lid lid0 _ hne
    · rw [if_neg hl]
      exact lookupVersions_cons_neg (beq_eq_false_iff_ne.mpr (Ne.symm hne))

lemma currentHash_commitIdx_self (idx : RIndex) (lid run h hv : String)
    (habs : idxTripleExists idx run h hv = false) :
    currentHash (commitIdx idx lid run h hv) lid = some (h, hv) := by
  unfold commitIdx
  rw [if_neg (by simp [habs])]
  by_cases hl : idx.any (fun p => p.1 == lid) = true
  · rw [if_pos hl]
    unfold currentHash
    rw [lookupVersions_keyMap_self idx lid _ hl]
    rfl
  · rw [if_neg hl]
    unfold currentHash
    rw [lookupVersions_cons_pos (by simp)]
    rfl

lemma idxTripleExists_commitIdx {idx : RIndex} {lid run h hv run' h' hv' : String}
    (hx : idxTripleExists (commitIdx idx lid run h hv) run' h' hv' = true) :
    idxTripleExists idx run' h' hv' = true ∨ (run = run' ∧ h = h' ∧ hv = hv') := by
  unfold commitIdx at hx
  by_cases ht : idxTripleExists idx run h hv = true
  · rw [if_pos ht] at hx
    exact Or.inl hx
  · rw [if_neg ht] at hx
    by_cases hl : idx.any (fun p => p.1 == lid) = true
    · rw [if_pos hl] at hx
      unfold idxTripleExists at hx ⊢
      rw [List.any_map] at hx
      obtain ⟨q, hq, hpq⟩ := List.any_eq_true.mp hx
      simp only [Function.comp_apply] at hpq
      by_cases hkey : (q.1 == lid) = true
      · rw [if_pos hkey] at hpq
        rw [List.any_cons] at hpq
        rcases Bool.or_eq_true_iff.mp hpq with hnew | hold
        · right
          have hnew' := hnew
          simp only [Bool.and_eq_true, beq_iff_eq] at hnew'
          exact ⟨hnew'.1.1, hnew'.1.2, hnew'.2⟩
        · exact Or.inl (List.any_eq_true.mpr ⟨q, hq, hold⟩)
      · rw [if_neg hkey] at hpq
        exact Or.inl (List.any_eq_true.mpr ⟨q, hq, hpq⟩)
    · rw [if_neg hl] at hx
      unfold idxTripleExists at hx ⊢
      rw [List.any_cons] at hx
      rcases Bool.or_eq_true_iff.mp hx with hnew | hold
      · right
        have hnew' := hnew
        simp only [List.any_cons, List.any_nil, Bool.or_false,
          Bool.and_eq_true, beq_iff_eq] at hnew'
        exact ⟨hnew'.1.1, hnew'.1.2, hnew'.2⟩
      · exact Or.inl hold

lemma countOpenFor_upsert_other (cs : List Conflict) (cid a b vh vhv x y : String)
    (h : ¬(x = a ∧ y = b)) :
    countOpenFor (upsertConflict cs cid a b vh vhv) x y = countOpenFor cs x y := by
  by_cases hany : cs.any (isOpenFor a b) = true
  · exact countOpenFor_upsert_update cs cid a b vh vhv x y hany
  · unfold upsertConflict
    rw [if_neg hany]
    unfold countOpenFor
    rw [List.countP_cons]
    have hnew : isOpenFor x y (⟨cid, a, b, vh, vhv, "open"⟩ : Conflict) = false := by
      by_contra hxe
      simp only [Bool.not_eq_false] at hxe
      simp only [isOpenFor, Bool.and_eq_true, beq_iff_eq] at hxe
      exact h ⟨hxe.1.1.symm, hxe.1.2.symm⟩
    rw [hnew]
    simp

lemma closeOpenFor_of_none (cs : List Conflict) (a b : String)
    (h : countOpenFor cs a b = 0) : closeOpenFor cs a b = cs := by
  unfold countOpenFor at h
  have hz := List.countP_eq_zero.mp h
  unfold closeOpenFor
  conv_rhs => rw [← List.map_id cs]
  apply List.map_congr_left
  intro c hc
  rw [if_neg (hz c hc)]
  rfl

lemma vaultMatch_congr {idx idx' : RIndex} {it : VaultItem}
    (h : lookupVersions idx it.lid = lookupVersions idx' it.lid) :
    vaultMatch idx it = vaultMatch idx' it := by
  unfold vaultMatch currentHash
  rw [h]

lemma processItem_of_match {run : String} {s : RState} {it : VaultItem}
    (hm : vaultMatch s.idx it = true) :
    processItem run s it = ⟨s.idx, closeOpenFor s.conflicts "entry" it.lid⟩ := by
  simp [processItem, hm]

lemma processItem_of_commit {run : String} {s : RState} {it : VaultItem}
    (hm : vaultMatch s.idx it = false)
    (habs : idxTripleExists s.idx run it.hash it.hv = false) :
    processItem run s it
      = ⟨commitIdx s.idx it.lid run it.hash it.hv,
         closeOpenFor s.conflicts "entry" it.lid⟩ := by
  have hm2 : vaultMatch (commitIdx s.idx it.lid run it.hash it.hv) it = true := by
    unfold vaultMatch
    rw [currentHash_commitIdx_self s.idx it.lid run it.hash it.hv habs]
    simp
  simp [processItem, hm, hm2]

lemma processItem_idx_cases (run : String) (s : RState) (it : VaultItem) :
    (processItem run s it).idx = s.idx ∨
    (processItem run s it).idx = commitIdx s.idx it.lid run it.hash it.hv := by
  by_cases hm1 : vaultMatch s.idx it = true
  · left
    rw [processItem_of_match hm1]
  · have hm1' : vaultMatch s.idx it = false := by simpa using hm1
    right
    by_cases hm2 : vaultMatch (commitIdx s.idx it.lid run it.hash it.hv) it = true
    · simp [processItem, hm1', hm2]
    · have hm2' : vaultMatch (commitIdx s.idx it.lid run it.hash it.hv) it = false := by
        simpa using hm2
      simp [processItem, hm1', hm2']

lemma processItem_self {run : String} {s : RState} {it : VaultItem}
    (habs : idxTripleExists s.idx run it.hash it.hv = false) :
    vaultMatch (processItem run s it).idx it = true ∧
    countOpenFor (processItem run s it).conflicts "entry" it.lid = 0 := by
  by_cases hm : vaultMatch s.idx it = true
  · rw [processItem_of_match hm]
    exact ⟨hm, countOpenFor_closeOpenFor_self _ _ _⟩
  · have hm' : vaultMatch s.idx it = false := by simpa using hm
    rw [processItem_of_commit hm' habs]
    constructor
    · unfold vaultMatch
      rw [currentHash_commitIdx_self _ _ _ _ _ habs]
      simp
    · exact countOpenFor_closeOpenFor_self _ _ _

lemma processItem_other {run : String} {s : RState} {it : VaultItem} {lid0 : String}
    (hne : lid0 ≠ it.lid) :
    lookupVersions (processItem run s it).idx lid0 = lookupVersions s.idx lid0 ∧
    countOpenFor (processItem run s it).conflicts "entry" lid0
      = countOpenFor s.conflicts "entry" lid0 := by
  by_cases hm1 : vaultMatch s.idx it = true
  · rw [processItem_of_match hm1]
    exact ⟨rfl, countOpenFor_closeOpenFor_other _ _ _ _ _ (fun hp => hne hp.2)⟩
  · have hm1' : vaultMatch s.idx it = false := by simpa using hm1
    by_cases hm2 : vaultMatch (commitIdx s.idx it.lid run it.hash it.hv) it = true
    · have hst : processItem run s it
          = ⟨commitIdx s.idx it.lid run it.hash it.hv,
             closeOpenFor s.conflicts "entry" it.lid⟩ := by
        simp [processItem, hm1', hm2]
      rw [hst]
      exact ⟨lookupVersions_commitIdx_other _ _ _ _ _ _ hne,
        countOpenFor_closeOpenFor_other _ _ _ _ _ (fun hp => hne hp.2)⟩
    · have hm2' : vaultMatch (commitIdx s.idx it.lid run it.hash it.hv) it = false := by
        simpa using hm2
      have hst : processItem run s it
          = ⟨commitIdx s.idx it.lid run it.hash it.hv,
             upsertConflict s.conflicts (String.append "cfl:" it.lid)
               "entry" it.lid it.hash it.hv⟩ := by
        simp [processItem, hm1', hm2']
      rw [hst]
      exact ⟨lookupVersions_commitIdx_other _ _ _ _ _ _ hne,
        countOpenFor_upsert_other _ _ _ _ _ _ _ _ (fun hp => hne hp.2)⟩

lemma rebuild_preserves (run : String) (vault : List VaultItem) :
    ∀ (s : RState) (lid0 : String),
      (∀ it ∈ vault, it.lid ≠ lid0) →
      lookupVersions (rebuild run s vault).idx lid0 = lookupVersions s.idx lid0 ∧
      countOpenFor (rebuild run s vault).conflicts "entry" lid0
        = countOpenFor s.conflicts "entry" lid0 := by
  induction vault with
  | nil => intro s lid0 _; exact ⟨rfl, rfl⟩
  | cons it0 rest ih =>
      intro s lid0 hnot
      have h0 := @processItem_other run s it0 lid0
        (Ne.symm (hnot it0 (List.mem_cons_self _ _)))
      have hr := ih (processItem run s it0) lid0
        (fun it' h' => hnot it' (List.mem_cons_of_mem _ h'))
      exact ⟨hr.1.trans h0.1, hr.2.trans h0.2⟩

lemma rebuild_establishes (run1 : String) (vault : List VaultItem) :
    ∀ (s : RState),
      (vault.map (·.lid)).Nodup →
      ((vault.map fun it => (it.hash, it.hv)).Nodup) →
      (∀ it ∈ vault, idxTripleExists s.idx run1 it.hash it.hv = false) →
      ∀ it ∈ vault, vaultMatch (rebuild run1 s vault).idx it = true ∧
        countOpenFor (rebuild run1 s vault).conflicts "entry" it.lid = 0 := by
  induction vault with
  | nil => intro s _ _ _ it hit; cases hit
  | cons it0 rest ih =>
      intro s hlids hpairs habs it hit
      have hstep : rebuild run1 s (it0 :: rest)
          = rebuild run1 (processItem run1 s it0) rest := rfl
      rw [hstep]
      have habs' : ∀ it' ∈ rest,
          idxTripleExists (processItem run1 s it0).idx run1 it'.hash it'.hv
            = false := by
        intro it' hit'
        have hpair : ¬(it0.hash = it'.hash ∧ it0.hv = it'.hv) := by
          intro hcon
          have hmem : (it0.hash, it0.hv) ∈ rest.map fun x => (x.hash, x.hv) :=
            List.mem_map.mpr ⟨it', hit', by rw [hcon.1, hcon.2]⟩
          exact (List.nodup_cons.mp hpairs).1 hmem
        by_contra hcon2
        have hcon3 : idxTripleExists (processItem run1 s it0).idx
            run1 it'.hash it'.hv = true := by
          simpa using hcon2
        rcases processItem_idx_cases run1 s it0 with hc | hc
        · rw [hc] at hcon3
          rw [habs it' (List.mem_cons_of_mem _ hit')] at hcon3
          cases hcon3
        · rw [hc] at hcon3
          rcases idxTripleExists_commitIdx hcon3 with hin | hsame
          · rw [habs it' (List.mem_cons_of_mem _ hit')] at hin
            cases hin
          · exact hpair ⟨hsame.2.1, hsame.2.2⟩
      rcases List.mem_cons.mp hit with he | hm
      · subst he
        have hself := processItem_self (habs it (List.mem_cons_self _ _))
        have hnotin : ∀ it' ∈ rest, it'.lid ≠ it.lid := by
          intro it' hit' hcon
          have : it.lid ∈ rest.map (·.lid) := List.mem_map.mpr ⟨it', hit', hcon⟩
          exact (List.nodup_cons.mp hlids).1 this
        have hpres := rebuild_preserves run1 rest (processItem run1 s it) it.lid hnotin
        constructor
        · rw [vaultMatch_congr hpres.1]
          exact hself.1
        · rw [hpres.2]
          exact hself.2
      · exact ih (processItem run1 s it0) (List.nodup_cons.mp hlids).2
          (List.nodup_cons.mp hpairs).2 habs' it hm

lemma rebuild_noop (run : String) (vault : List VaultItem) :
    ∀ (s : RState),
      (∀ it ∈ vault, vaultMatch s.idx it = true ∧
        countOpenFor s.conflicts "entry" it.lid = 0) →
      rebuild run s vault = s := by
  induction vault with
  | nil => intro s _; rfl
  | cons it0 rest ih =>
      intro s h
      have h0 := h it0 (List.mem_cons_self _ _)
      have hproc : processItem run s it0 = s := by
        rw [processItem_of_match h0.1, closeOpenFor_of_none s.conflicts _ _ h0.2]
      have hstep : rebuild run s (it0 :: rest)
          = rebuild run (processItem run s it0) rest := rfl
      rw [hstep, hproc]
      exact ih s (fun it' h' => h it' (List.mem_cons_of_mem _ h'))

/-- **C4 (amended).** Rebuild is idempotent provided distinct vault
entities carry distinct logical ids and distinct content-hash pairs and
the first rebuild's run id is fresh: running rebuild a second time with
an unchanged vault leaves the state exactly as it was — zero new version
rows, zero new conflict rows, and an unchanged open-conflict set. -/
theorem rebuild_idempotent_for_distinct_hashes (run1 run2 : String) (s0 : RState)
    (vault : List VaultItem)
    (hlids : (vault.map (·.lid)).Nodup)
    (hpairs : (vault.map fun it => (it.hash, it.hv)).Nodup)
    (hfresh : ∀ it ∈ vault, idxTripleExists s0.idx run1 it.hash it.hv = false) :
    rebuild run2 (rebuild run1 s0 vault) vault = rebuild run1 s0 vault :=
  rebuild_noop run2 vault _ (rebuild_establishes run1 vault s0 hlids hpairs hfresh)

/-- Concrete instance of `rebuild_idempotent_for_distinct_hashes`: with
two entities of distinct content, the second rebuild is a no-op. -/
theorem rebuild_idempotent_for_distinct_hashes_witness :
    rebuild "RB2"
        (rebuild "RB1" ⟨[], []⟩
          [⟨"L1", "H1", "sha256-v1"⟩, ⟨"L2", "H2", "sha256-v1"⟩])
        [⟨"L1", "H1", "sha256-v1"⟩, ⟨"L2", "H2", "sha256-v1"⟩]
      = rebuild "RB1" ⟨[], []⟩
          [⟨"L1", "H1", "sha256-v1"⟩, ⟨"L2", "H2", "sha256-v1"⟩] :=
  rebuild_idempotent_for_distinct_hashes "RB1" "RB2" ⟨[], []⟩
    [⟨"L1", "H1", "sha256-v1"⟩, ⟨"L2", "H2", "sha256-v1"⟩]
    (by decide) (by decide) (by decide)

/-! ## Version-chain table schemas (C7)

Column lists and UNIQUE constraints transcribed from
`src/migrations/0001_lifeos_v2.sql` and
`src/migrations/0003_thoughts_ideas_cards.sql` (including the two
`ALTER TABLE chat_threads ADD COLUMN` statements). -/

/-- A table schema: its name, columns and multi-column UNIQUE
constraints. -/
structure TableSchema where
  name : String
  columns : List String
  uniques : List (List String)
  deriving Repr, DecidableEq

def entry_versions_table : TableSchema :=
  { name := "entry_versions"
    columns := ["version_id", "logical_id", "entry_id", "source_run_id",
      "version_no", "is_current", "supersedes_version_id", "summary",
      "details_md", "actions_md", "tags_json", "goals_json", "created_at",
      "updated_at"]
    uniques := [["logical_id", "version_no"]] }

def obs_activity_table : TableSchema :=
  { name := "obs_activity"
    columns := ["observation_id", "logical_id", "entry_id", "source_run_id",
      "observed_at", "steps", "duration_min", "distance_km", "location",
      "calories", "pace", "notes", "payload_hash", "payload_hash_version",
      "version_no", "is_current", "supersedes_id", "created_at", "updated_at"]
    uniques := [["source_run_id", "payload_hash", "payload_hash_version"],
      ["logical_id", "version_no"]] }

def obs_sleep_table : TableSchema :=
  { name := "obs_sleep"
    columns := ["observation_id", "logical_id", "entry_id", "source_run_id",
      "sleep_start", "sleep_end", "duration_min", "quality", "notes",
      "payload_hash", "payload_hash_version", "version_no", "is_current",
      "supersedes_id", "created_at", "updated_at"]
    uniques := [["source_run_id", "payload_hash", "payload_hash_version"],
      ["logical_id", "version_no"]] }

def obs_food_table : TableSchema :=
  { name := "obs_food"
    columns := ["observation_id", "logical_id", "entry_id", "source_run_id",
      "meal_type", "items_json", "notes", "payload_hash",
      "payload_hash_version", "version_no", "is_current", "supersedes_id",
      "created_at", "updated_at"]
    uniques := [["source_run_id", "payload_hash", "payload_hash_version"],
      ["logical_id", "version_no"]] }

def obs_weight_table : TableSchema :=
  { name := "obs_weight"
    columns := ["observation_id", "logical_id", "entry_id", "source_run_id",
      "measured_at", "weight_kg", "payload_hash", "payload_hash_version",
      "version_no", "is_current", "supersedes_id", "created_at", "updated_at"]
    uniques := [["source_run_id", "payload_hash", "payload_hash_version"],
      ["logical_id", "version_no"]] }

def tasks_table : TableSchema :=
  { name := "tasks"
    columns := ["task_id", "logical_id", "path", "source_entry_id",
      "source_run_id", "goal_id", "title", "due_date", "priority", "status",
      "rationale", "payload_hash", "payload_hash_version", "version_no",
      "is_current", "supersedes_id", "created_at", "updated_at"]
    uniques := [["source_run_id", "payload_hash", "payload_hash_version"],
      ["logical_id", "version_no"]] }

def improvements_table : TableSchema :=
  { name := "improvements"
    columns := ["improvement_id", "logical_id", "path", "source_entry_id",
      "source_run_id", "goal_id", "title", "rationale", "status",
      "last_nudged_at", "payload_hash", "payload_hash_version", "version_no",
      "is_current", "supersedes_id", "created_at", "updated_at"]
    uniques := [["source_run_id", "payload_hash", "payload_hash_version"],
      ["logical_id", "version_no"]] }

def insights_table : TableSchema :=
  { name := "insights"
    columns := ["insight_id", "logical_id", "path", "source_entry_id",
      "source_run_id", "goal_id", "title", "evidence_json", "payload_hash",
      "payload_hash_version", "version_no", "is_current", "supersedes_id",
      "created_at", "updated_at"]
    uniques := [["source_run_id", "payload_hash", "payload_hash_version"],
      ["logical_id", "version_no"]] }

def chat_threads_table : TableSchema :=
  { name := "chat_threads"
    columns := ["thread_id", "logical_id", "path", "source_run_id", "goal_id",
      "title", "version_no", "is_current", "supersedes_id", "created_at",
      "updated_at", "entity_type", "entity_id"]
    uniques := [["logical_id", "version_no"]] }

def ideas_table : TableSchema :=
  { name := "ideas"
    columns := ["idea_id", "logical_id", "title", "description", "status",
      "converted_to_type", "converted_to_id", "source_entry_id",
      "source_run_id", "payload_hash", "payload_hash_version", "version_no",
      "is_current", "supersedes_id", "created_at", "updated_at"]
    uniques := [["source_run_id", "payload_hash", "payload_hash_version"],
      ["logical_id", "version_no"]] }

def insight_cards_table : TableSchema :=
  { name := "insight_cards"
    columns := ["card_id", "logical_id", "source_run_id", "entity_type",
      "entity_id", "source_thread_id", "title", "body_md", "action_taken",
      "tags_json", "payload_hash", "payload_hash_version", "version_no",
      "is_current", "supersedes_id", "created_at", "updated_at"]
    uniques := [["source_run_id", "payload_hash", "payload_hash_version"],
      ["logical_id", "version_no"]] }

/-- All versioned entity families of the schema. -/
def versionedFamilies : List TableSchema :=
  [ideas_table, tasks_table, improvements_table, insights_table,
   insight_cards_table, chat_threads_table, obs_activity_table,
   obs_sleep_table, obs_food_table, obs_weight_table, entry_versions_table]

/-- The generic version-chain shape: stable logical id, version number
with its per-chain uniqueness constraint, current flag, and a supersedes
link column. -/
def hasVersionChainShape (t : TableSchema) : Bool :=
  t.columns.contains "logical_id" && t.columns.contains "version_no" &&
    t.columns.contains "is_current" &&
    (t.columns.contains "supersedes_id" ||
      t.columns.contains "supersedes_version_id") &&
    t.uniques.contains ["logical_id", "version_no"]

/-- The content-addressed idempotency key: `payload_hash` and
`payload_hash_version` columns plus the composite
`UNIQUE(source_run_id, payload_hash, payload_hash_version)`. -/
def hasIdempotencyKey (t : TableSchema) : Bool :=
  t.columns.contains "payload_hash" &&
    t.columns.contains "payload_hash_version" &&
    t.uniques.contains ["source_run_id", "payload_hash", "payload_hash_version"]

/-- **C7 (counterexample to the claim as stated).** `chat_threads` is a
versioned family (it carries the version-chain shape) but has no
`payload_hash` column and no
`UNIQUE(source_run_id, payload_hash, payload_hash_version)` constraint;
the same holds for `entry_versions`. -/
theorem chat_threads_no_idempotency_key :
    chat_threads_table ∈ versionedFamilies ∧
    hasVersionChainShape chat_threads_table = true ∧
    chat_threads_table.columns.contains "payload_hash" = false ∧
    hasIdempotencyKey chat_threads_table = false ∧
    hasIdempotencyKey entry_versions_table = false := by
  decide

/-- **C7 (amended).** Every versioned entity family carries the generic
version-chain shape, and every family except the chat threads and the
entry revisions also carries the `payload_hash` / `payload_hash_version`
fields with the `(source_run_id, payload_hash, payload_hash_version)`
uniqueness that makes committing the same payload twice under the same
run a no-op; `chat_threads` and `entry_versions` have the chain shape
but no content-addressed idempotency key. -/
theorem version_chain_shape_and_idempotency_key :
    (∀ t ∈ versionedFamilies, hasVersionChainShape t = true) ∧
    (∀ t ∈ versionedFamilies,
      t.name ≠ "chat_threads" → t.name ≠ "entry_versions" →
      hasIdempotencyKey t = true) := by
  decide

/-- Concrete instance of `version_chain_shape_and_idempotency_key` at
the `ideas` family. -/
theorem version_chain_shape_and_idempotency_key_witness :
    hasVersionChainShape ideas_table = true ∧
    hasIdempotencyKey ideas_table = true :=
  ⟨version_chain_shape_and_idempotency_key.1 ideas_table (by decide),
   version_chain_shape_and_idempotency_key.2 ideas_table (by decide)
     (by decide) (by decide)⟩

/-! ## Version immutability and the entry cascade (C8) -/

/-- A row of `entry_versions` narrowed to what the cascade touches:
the primary key, the chain identity, the parent entry and the flags
(`FOREIGN KEY (entry_id) REFERENCES entries_index(id) ON DELETE CASCADE`,
`0001_lifeos_v2.sql` line 67; same clause on `obs_activity` line 177). -/
structure EntryVersionRow where
  version_id : String
  logical_id : String
  entry_id : String
  version_no : Nat
  is_current : Bool
  deriving Repr, DecidableEq

/-- SQLite semantics of `DELETE FROM entries_index WHERE id = eid` on the
version table: the `ON DELETE CASCADE` foreign key deletes every version
row of the entry. -/
def cascadeDeleteEntry (versions : List EntryVersionRow) (eid : String) :
    List EntryVersionRow :=
  versions.filter fun r => !(r.entry_id == eid)

/-- **C8 (counterexample to the claim as stated).** Version rows are not
unconditionally immutable history: deleting entry `E1` cascades into its
version table and removes even the superseded row `v1` (and the current
`v2`), so the store can lose version rows. -/
theorem superseded_version_deleted_by_cascade :
    (⟨"v1", "L1", "E1", 1, false⟩ : EntryVersionRow)
        ∈ [(⟨"v1", "L1", "E1", 1, false⟩ : EntryVersionRow),
           ⟨"v2", "L1", "E1", 2, true⟩] ∧
    cascadeDeleteEntry
        [⟨"v1", "L1", "E1", 1, false⟩, ⟨"v2", "L1", "E1", 2, true⟩] "E1"
      = [] := by
  decide

/-- **C8 (amended).** Superseded versions are immutable append-only
history under the versioning operations themselves: `commit_version`
never removes a row and alters an existing row only in its `is_current`
flag (every other field is kept verbatim), and the table only grows.
Version rows can, however, be removed by deleting the parent entry: the
`ON DELETE CASCADE` foreign key removes exactly the versions of the
deleted entry, leaving every other version row in place. -/
theorem version_rows_append_only_except_cascade :
    (∀ (rows : Table) (lid run ph phv vid : String), ∀ r ∈ rows,
      ∃ r' ∈ (commit_version rows lid run ph phv vid).1,
        r'.version_id = r.version_id ∧ r'.logical_id = r.logical_id ∧
        r'.version_no = r.version_no ∧ r'.supersedes_id = r.supersedes_id ∧
        r'.source_run_id = r.source_run_id ∧ r'.payload_hash = r.payload_hash ∧
        r'.payload_hash_version = r.payload_hash_version) ∧
    (∀ (rows : Table) (lid run ph phv vid : String),
      rows.length ≤ (commit_version rows lid run ph phv vid).1.length) ∧
    (∀ (versions : List EntryVersionRow) (eid : String), ∀ r ∈ versions,
      r.entry_id ≠ eid → r ∈ cascadeDeleteEntry versions eid) := by
  refine ⟨?_, ?_, ?_⟩
  · intro rows lid run ph phv vid r hr
    unfold commit_version
    rcases findByTriple rows run ph phv with _ | q
    · rcases currentOf rows lid with _ | prev
      · exact ⟨r, List.mem_cons_of_mem _ hr, rfl, rfl, rfl, rfl, rfl, rfl, rfl⟩
      · refine ⟨flipCurrent prev.version_id r,
          List.mem_cons_of_mem _ (List.mem_map_of_mem _ hr), ?_⟩
        unfold flipCurrent
        split <;> exact ⟨rfl, rfl, rfl, rfl, rfl, rfl, rfl⟩
    · exact ⟨r, hr, rfl, rfl, rfl, rfl, rfl, rfl, rfl⟩
  · intro rows lid run ph phv vid
    unfold commit_version
    rcases findByTriple rows run ph phv with _ | q
    · rcases currentOf rows lid with _ | prev
      · exact Nat.le_succ _
      · simp
    · exact Nat.le_refl _
  · intro versions eid r hr hne
    unfold cascadeDeleteEntry
    refine List.mem_filter.mpr ⟨hr, ?_⟩
    simp [hne]

/-- Concrete instance of `version_rows_append_only_except_cascade`: a
version row of entry `E2` survives the cascade deletion of entry `E1`. -/
theorem version_rows_append_only_except_cascade_witness :
    (⟨"v1", "L1", "E2", 1, true⟩ : EntryVersionRow)
        ∈ cascadeDeleteEntry
            [⟨"v1", "L1", "E2", 1, true⟩, ⟨"v2", "L2", "E1", 1, true⟩] "E1" :=
  version_rows_append_only_except_cascade.2.2
    [⟨"v1", "L1", "E2", 1, true⟩, ⟨"v2", "L2", "E1", 1, true⟩] "E1"
    ⟨"v1", "L1", "E2", 1, true⟩ (by decide) (by decide)

/-! ## The provenance ledger (C9, C10) -/

/-- A row of `artifact_runs` (`0001_lifeos_v2.sql` lines 7-17). -/
structure RunRow where
  run_id : String
  run_kind : String
  actor : String
  parent_run_id : Option String
  deriving Repr, DecidableEq

/-- The CHECK constraint on `artifact_runs.run_kind` (lines 9-11). -/
def runKindAllowed (k : String) : Bool :=
  k == "llm" || k == "manual" || k == "system" || k == "import" ||
    k == "rebuild"

/-- The provenance-integrity errors of spec §7. -/
inductive RunError
  | InvalidRunKind
  | DanglingParent
  deriving Repr, DecidableEq

/-- Modelled from the spec: §4.1 `begin_run(kind, actor, parent_run_id?,
notes)` of the ProvenanceLedger (the service layer is not in the provided
source tree).  The kind must satisfy the schema's `run_kind` CHECK enum
and a supplied `parent_run_id` must reference an existing run (the
self-referencing foreign key); otherwise the run row is created.  No
update or delete operation on runs is exposed by the ledger. -/
def begin_run (runs : List RunRow) (rid kind actor : String)
    (parent : Option String) : Except RunError (List RunRow) :=
  if !runKindAllowed kind then .error .InvalidRunKind
  else
    match parent with
    | some p =>
        if runs.any (fun r => r.run_id == p) then
          .ok (⟨rid, kind, actor, parent⟩ :: runs)
        else .error .DanglingParent
    | none => .ok (⟨rid, kind, actor, none⟩ :: runs)

/-- **C9.** `begin_run` fails with `InvalidRunKind` for every kind
outside the fixed enum {llm, manual, system, import, rebuild}, fails
with `DanglingParent` for every parent id not referencing an existing
run, and otherwise creates exactly the new run row on top of the
existing ones. -/
theorem begin_run_spec (runs : List RunRow) (rid kind actor : String)
    (parent : Option String) :
    (runKindAllowed kind = false →
      begin_run runs rid kind actor parent = .error .InvalidRunKind) ∧
    (runKindAllowed kind = true →
      ∀ p, parent = some p → runs.any (fun r => r.run_id == p) = false →
        begin_run runs rid kind actor parent = .error .DanglingParent) ∧
    (runKindAllowed kind = true → parent = none →
      begin_run runs rid kind actor parent
        = .ok (⟨rid, kind, actor, none⟩ :: runs)) ∧
    (runKindAllowed kind = true →
      ∀ p, parent = some p → runs.any (fun r => r.run_id == p) = true →
        begin_run runs rid kind actor parent
          = .ok (⟨rid, kind, actor, parent⟩ :: runs)) := by
  refine ⟨?_, ?_, ?_, ?_⟩
  · intro hbad
    unfold begin_run
    rw [if_pos (by simp [hbad])]
  · intro hok p hp hdangling
    subst hp
    unfold begin_run
    rw [if_neg (by simp [hok])]
    show (if (runs.any fun r => r.run_id == p) = true then
        Except.ok (⟨rid, kind, actor, some p⟩ :: runs)
      else Except.error RunError.DanglingParent) = _
    rw [if_neg (by simp [hdangling])]
  · intro hok hp
    subst hp
    unfold begin_run
    rw [if_neg (by simp [hok])]
  · intro hok p hp hfound
    subst hp
    unfold begin_run
    rw [if_neg (by simp [hok])]
    show (if (runs.any fun r => r.run_id == p) = true then
        Except.ok (⟨rid, kind, actor, some p⟩ :: runs)
      else Except.error RunError.DanglingParent) = _
    rw [if_pos hfound]

/-- Concrete instance of `begin_run_spec`: kind `chat` is rejected with
`InvalidRunKind`, and a `manual` run with a dangling parent is rejected
with `DanglingParent`. -/
theorem begin_run_spec_witness :
    begin_run [] "R1" "chat" "local_user" none = .error .InvalidRunKind ∧
    begin_run [] "R2" "manual" "local_user" (some "missing")
      = .error .DanglingParent :=
  ⟨(begin_run_spec [] "R1" "chat" "local_user" none).1 (by decide),
   (begin_run_spec [] "R2" "manual" "local_user" (some "missing")).2.1
     (by decide) "missing" rfl (by decide)⟩

/-- FK actions of every foreign key referencing `artifact_runs(run_id)`,
transcribed from the two migrations: (table, column, on_delete). -/
def runFKActions : List (String × String × String) :=
  [("artifact_runs", "parent_run_id", "SET NULL"),
   ("entries_index", "source_run_id", "RESTRICT"),
   ("entry_versions", "source_run_id", "RESTRICT"),
   ("prompt_runs", "run_id", "CASCADE"),
   ("obs_activity", "source_run_id", "RESTRICT"),
   ("obs_sleep", "source_run_id", "RESTRICT"),
   ("obs_food", "source_run_id", "RESTRICT"),
   ("obs_weight", "source_run_id", "RESTRICT"),
   ("tasks", "source_run_id", "RESTRICT"),
   ("improvements", "source_run_id", "RESTRICT"),
   ("insights", "source_run_id", "RESTRICT"),
   ("chat_threads", "source_run_id", "RESTRICT"),
   ("chat_messages", "source_run_id", "RESTRICT"),
   ("weekly_reviews", "source_run_id", "RESTRICT"),
   ("sync_conflicts", "app_run_id", "RESTRICT"),
   ("sync_conflict_events", "source_run_id", "SET NULL"),
   ("thought_areas", "source_run_id", "RESTRICT"),
   ("thought_topics", "source_run_id", "RESTRICT"),
   ("entry_topics", "source_run_id", "RESTRICT"),
   ("ideas", "source_run_id", "RESTRICT"),
   ("idea_entries", "source_run_id", "RESTRICT"),
   ("insight_cards", "source_run_id", "RESTRICT")]

/-- The FK error raised by a RESTRICT reference. -/
inductive DeleteError
  | FkRestrict
  deriving Repr, DecidableEq

/-- The provenance state relevant to run deletion: the run rows and the
multiset of run ids referenced through an `ON DELETE RESTRICT` foreign
key (the `source_run_id` columns of entries, versions, observations,
tasks, improvements, insights, ideas, insight cards, chat rows and the
`app_run_id` of conflicts). -/
structure ProvDB where
  runs : List RunRow
  restrict_refs : List String
  deriving Repr, DecidableEq

/-- SQLite FK semantics of `DELETE FROM artifact_runs WHERE run_id = rid`
under the schema's clauses: a RESTRICT reference aborts the delete;
otherwise the row is removed and every child run's `parent_run_id` is
silently set to NULL (`ON DELETE SET NULL`, line 16). -/
def delete_run (db : ProvDB) (rid : String) : Except DeleteError ProvDB :=
  if db.restrict_refs.any (fun x => x == rid) then .error .FkRestrict
  else
    .ok ⟨(db.runs.filter (fun r => !(r.run_id == rid))).map
        (fun r => if r.parent_run_id == some rid then
            { r with parent_run_id := none }
          else r),
      db.restrict_refs⟩

/-- **C10.** Every entity table referencing a run as provenance does so
with `ON DELETE RESTRICT`, while `artifact_runs.parent_run_id` uses
`ON DELETE SET NULL`; consequently deleting a run fails whenever an
entity row references it, but deleting a run that is only referenced as
another run's parent succeeds and silently nulls the child's
`parent_run_id`, losing the provenance edge without error. -/
theorem delete_run_restrict_vs_set_null :
    (∀ tbl ∈ ["entries_index", "entry_versions", "obs_activity", "obs_sleep",
        "obs_food", "obs_weight", "tasks", "improvements", "insights",
        "ideas", "insight_cards"],
      (tbl, "source_run_id", "RESTRICT") ∈ runFKActions) ∧
    ("sync_conflicts", "app_run_id", "RESTRICT") ∈ runFKActions ∧
    ("artifact_runs", "parent_run_id", "SET NULL") ∈ runFKActions ∧
    (∀ (db : ProvDB) (rid : String),
      db.restrict_refs.any (fun x => x == rid) = true →
      delete_run db rid = .error .FkRestrict) ∧
    (∀ (db : ProvDB) (rid : String),
      db.restrict_refs.any (fun x => x == rid) = false →
      ∃ db', delete_run db rid = .ok db' ∧
        (∀ r ∈ db'.runs, r.run_id ≠ rid) ∧
        (∀ r ∈ db.runs, r.run_id ≠ rid → r.parent_run_id = some rid →
          { r with parent_run_id := none } ∈ db'.runs)) := by
  refine ⟨by decide, by decide, by decide, ?_, ?_⟩
  · intro db rid h
    unfold delete_run
    rw [if_pos h]
  · intro db rid h
    refine ⟨⟨(db.runs.filter (fun r => !(r.run_id == rid))).map
        (fun r => if r.parent_run_id == some rid then
            { r with parent_run_id := none }
          else r),
      db.restrict_refs⟩, ?_, ?_, ?_⟩
    · unfold delete_run
      rw [if_neg (by simp [h])]
    · intro r hr
      obtain ⟨r0, hr0, hmap⟩ := List.mem_map.mp hr
      have hr0f := List.mem_filter.mp hr0
      have hne : r0.run_id ≠ rid := by
        have := hr0f.2
        simp only [Bool.not_eq_eq_eq_not, Bool.not_true, beq_eq_false_iff_ne] at this
        exact this
      rw [← hmap]
      by_cases hp : (r0.parent_run_id == some rid) = true
      · rw [if_pos hp]
        exact hne
      · rw [if_neg hp]
        exact hne
    · intro r hr hne hparent
      have hmem : r ∈ db.runs.filter (fun x => !(x.run_id == rid)) :=
        List.mem_filter.mpr ⟨hr, by simp [hne]⟩
      refine List.mem_map.mpr ⟨r, hmem, ?_⟩
      show (if (r.parent_run_id == some rid) = true then
          { r with parent_run_id := none } else r)
        = { r with parent_run_id := none }
      rw [if_pos (by simp [hparent])]

/-- Concrete instance of `delete_run_restrict_vs_set_null`: deleting run
`R1`, which is only the parent of `R2`, succeeds and leaves `R2` with no
parent; deleting a run referenced by an entity fails. -/
theorem delete_run_restrict_vs_set_null_witness :
    delete_run ⟨[⟨"R1", "manual", "local_user", none⟩,
        ⟨"R2", "llm", "local_user", some "R1"⟩], ["R2"]⟩ "R2"
      = .error .FkRestrict ∧
    (⟨"R2", "llm", "local_user", none⟩ : RunRow)
        ∈ ((delete_run ⟨[⟨"R1", "manual", "local_user", none⟩,
            ⟨"R2", "llm", "local_user", some "R1"⟩], ["R2"]⟩ "R1").toOption.map
          (·.runs)).getD [] := by
  constructor
  · exact delete_run_restrict_vs_set_null.2.2.2.1
      ⟨[⟨"R1", "manual", "local_user", none⟩,
        ⟨"R2", "llm", "local_user", some "R1"⟩], ["R2"]⟩ "R2" (by decide)
  · decide

end LifeOS
